import Mathlib

/-!
Verification development for the av_memory multi-modal scene-memory
retrieval layer.  The fusion / filtering / novelty code
(`src/av_memory/search.py`) is embedded over ℚ (raw similarity scores,
weights); the shared encoder post-processing and the radar encoder
(`src/av_memory/embeddings/*.py`) are embedded over ℝ because they divide
by a Euclidean norm.  Python dicts are modelled as insertion-ordered
association lists, Python's stable `list.sort(reverse=True)` as an
insertion sort with a ≥-comparison, and Python list slicing `out[:k]`
with its signed-index semantics.  A `none` result models a raised
exception.
-/

set_option maxHeartbeats 2000000
set_option maxRecDepth 4000

namespace AVMemory

/-- A scored point returned by one modality query (`qm.ScoredPoint`):
record identifier (already passed through `str`), optional raw similarity
score, optional payload snapshot. -/
structure ScoredPoint where
  id : String
  score : Option ℚ
  payload : Option (List (String × String))
deriving Repr, DecidableEq

/-- The `SearchWeights` record: per-modality fusion weights with the source defaults
0.40 / 0.30 / 0.15 / 0.15. -/
structure SearchWeights where
  vision : ℚ
  lidar : ℚ
  radar : ℚ
  text : ℚ
deriving Repr, DecidableEq

/-- The default `SearchWeights()` instance. -/
def defaultWeights : SearchWeights := ⟨2/5, 3/10, 3/20, 3/20⟩

/-- Lookup in the `wmap` dict built by `fuse_rankings`, with the
`wmap.get(mod, 0.0)` default of 0 for unknown modality names. -/
def wlookup (w : SearchWeights) (m : String) : ℚ :=
  if m = "vision" then w.vision
  else if m = "lidar" then w.lidar
  else if m = "radar" then w.radar
  else if m = "text" then w.text
  else 0

/-- The `1e-9` epsilon guard of `fuse_rankings`. -/
def fuseEps : ℚ := 1/1000000000

/-- One step of the `ms = max(ms, float(it.score))` accumulation,
skipping `None` scores. -/
def maxStep (ms : ℚ) (it : ScoredPoint) : ℚ :=
  match it.score with
  | some s => max ms s
  | none => ms

/-- The value `ms` after the first loop of `fuse_rankings`: the maximum of 0.0 and
all present raw scores of one modality's list. -/
def maxScoreList (items : List ScoredPoint) : ℚ :=
  items.foldl maxStep 0

/-- The per-modality divisor: `ms if ms > 1e-9 else 1.0`.  The source
stores these in the `max_score` dict and looks them up per modality;
since dict keys are unique, computing the divisor per (modality, list)
pair is equivalent, and the `max_score.get(mod, 1.0)` default can never
fire. -/
def denomOf (items : List ScoredPoint) : ℚ :=
  if fuseEps < maxScoreList items then maxScoreList items else 1

/-- The normalized score `norm_score = float(sp.score) / denom`. -/
def normScore (denom s : ℚ) : ℚ := s / denom

/-- One fused ranking entry (the per-record dict built by
`fuse_rankings`). -/
structure FusedEntry where
  id : String
  fused_score : ℚ
  per_modality : List (String × ℚ)
  payload : List (String × String)
deriving Repr, DecidableEq

/-- Python dict assignment `d[k] = v` on an insertion-ordered association
list: overwrite in place when the key exists, else append at the end. -/
def setAssoc : List (String × ℚ) → String → ℚ → List (String × ℚ)
  | [], k, v => [(k, v)]
  | p :: rest, k, v => if p.1 = k then (k, v) :: rest else p :: setAssoc rest k v

/-- Python dict lookup on an association list. -/
def lookupA : List (String × ℚ) → String → Option ℚ
  | [], _ => none
  | p :: rest, k => if p.1 = k then some p.2 else lookupA rest k

/-- The body of the inner loop of `fuse_rankings` for one scored point
with a present score: create the record's entry if absent (attaching
`sp.payload or {}`), add `d` to its fused score and record the raw score
under `mod`. -/
def updateFused : List FusedEntry → String → ℚ → String → ℚ → List (String × String) →
    List FusedEntry
  | [], sid, d, mod, s, pl => [⟨sid, d, [(mod, s)], pl⟩]
  | e :: rest, sid, d, mod, s, pl =>
    if e.id = sid then
      ⟨e.id, e.fused_score + d, setAssoc e.per_modality mod s, e.payload⟩ :: rest
    else e :: updateFused rest sid d mod s pl

/-- Processing of one scored point: points with `score is None` are
skipped (`continue`). -/
def addPoint (w denom : ℚ) (mod : String) (acc : List FusedEntry) (sp : ScoredPoint) :
    List FusedEntry :=
  match sp.score with
  | none => acc
  | some s => updateFused acc sp.id (w * normScore denom s) mod s (sp.payload.getD [])

/-- The inner loop of `fuse_rankings` over one modality's list. -/
def fuseModality (w denom : ℚ) (mod : String) (acc : List FusedEntry)
    (items : List ScoredPoint) : List FusedEntry :=
  items.foldl (addPoint w denom mod) acc

/-- The full accumulation phase of `fuse_rankings` over all modalities in
input (dict insertion) order. -/
def fuseAll (ws : SearchWeights) (l : List (String × List ScoredPoint)) : List FusedEntry :=
  l.foldl (fun acc p => fuseModality (wlookup ws p.1) (denomOf p.2) p.1 acc p.2) []

/-- The comparison realised by Python's stable
`sort(key=fused_score, reverse=True)`: `a` may come before `b` iff
`b`'s fused score is at most `a`'s. -/
def rFused (a b : FusedEntry) : Prop := b.fused_score ≤ a.fused_score

instance : DecidableRel rFused :=
  fun a b => inferInstanceAs (Decidable (b.fused_score ≤ a.fused_score))

instance : IsTotal FusedEntry rFused :=
  ⟨fun a b => le_total b.fused_score a.fused_score⟩

instance : IsTrans FusedEntry rFused :=
  ⟨fun _ _ _ h1 h2 => le_trans h2 h1⟩

/-- Python list slicing `out[:k]` for a signed `k`: a negative `k` counts
from the end, clamped at zero. -/
def sliceTo (k : ℤ) (l : List FusedEntry) : List FusedEntry :=
  l.take (if 0 ≤ k then k.toNat else ((l.length : ℤ) + k).toNat)

/-- The function `fuse_rankings`: accumulate weighted max-normalized scores per record
id, sort stably by descending fused score, slice to `top_k`. -/
def fuse_rankings (l : List (String × List ScoredPoint)) (ws : SearchWeights)
    (top_k : ℤ) : List FusedEntry :=
  sliceTo top_k (List.insertionSort rFused (fuseAll ws l))

/-- One clause of a Qdrant filter: an equality match or an inclusive
(`gte`/`lte`) range on a payload key. -/
inductive FieldCondition where
  | matchValue (key : String) (value : String)
  | tsRange (key : String) (gte lte : Option ℤ)
deriving Repr, DecidableEq

/-- A filter `qm.Filter(must=...)`: a conjunction of field conditions. -/
structure QFilter where
  must : List FieldCondition
deriving Repr, DecidableEq

/-- The builder `_make_filter`: one equality clause per provided categorical field in
source order, one inclusive `ts` range clause when either bound is
provided, `None` when no clause was built. -/
def make_filter (weather time_of_day road_type location_bucket : Option String)
    (ts_min ts_max : Option ℤ) : Option QFilter :=
  let must :=
    (match weather with
      | some v => [FieldCondition.matchValue "weather" v]
      | none => [])
    ++ (match time_of_day with
      | some v => [FieldCondition.matchValue "time_of_day" v]
      | none => [])
    ++ (match road_type with
      | some v => [FieldCondition.matchValue "road_type" v]
      | none => [])
    ++ (match location_bucket with
      | some v => [FieldCondition.matchValue "location_bucket" v]
      | none => [])
    ++ (if ts_min.isSome || ts_max.isSome then [FieldCondition.tsRange "ts" ts_min ts_max]
        else [])
  if must = [] then none else some ⟨must⟩

/-- Python `dict.get` on the `query_vectors` mapping. -/
def lookupVec : List (String × List ℚ) → String → Option (List ℚ)
  | [], _ => none
  | p :: rest, m => if p.1 = m then some p.2 else lookupVec rest m

/-- The function `search_fused`: build the shared filter, issue one store query per
modality whose supplied query vector is truthy (`if not qv: continue`
skips both a missing and an empty vector), and fuse.  The store gateway
is a function (vector name, filter, limit) → scored points. -/
def search_fused (store : String → Option QFilter → ℤ → List ScoredPoint)
    (query_vectors : List (String × List ℚ)) (weights : Option SearchWeights)
    (limit_per_modality : ℤ) (top_k : ℤ)
    (weather time_of_day road_type location_bucket : Option String)
    (ts_min ts_max : Option ℤ) : List FusedEntry :=
  let ws := weights.getD defaultWeights
  let filt := make_filter weather time_of_day road_type location_bucket ts_min ts_max
  let lists := (["vision", "lidar", "radar", "text"].filterMap fun m =>
    match lookupVec query_vectors m with
    | none => none
    | some qv => if qv = [] then none else some (m, store m filt limit_per_modality))
  fuse_rankings lists ws top_k

/-- The classifier `is_novel_scene` (source defaults: threshold 0.78, min_results 3);
`none` models the `IndexError` raised by `fused_results[0]` on an empty
list. -/
def is_novel_scene (fused_results : List FusedEntry) (threshold : ℚ)
    (min_results : ℤ) : Option Bool :=
  if (fused_results.length : ℤ) < min_results then some true
  else
    match fused_results with
    | [] => none
    | best :: _ => some (decide (best.fused_score < threshold))

/-- The fused score recorded for a record id in a fused-entry list
(0 when the id has no entry; ids are unique in lists built by
`fuseAll`). -/
def idScoreOf : List FusedEntry → String → ℚ
  | [], _ => 0
  | e :: rest, i => if e.id = i then e.fused_score else idScoreOf rest i

/-- One point's max-normalized contribution to a record id, before
weighting. -/
def rawContrib (denom : ℚ) (i : String) (sp : ScoredPoint) : ℚ :=
  if sp.id = i then
    match sp.score with
    | some s => normScore denom s
    | none => 0
  else 0

/-- One modality pair's weighted contribution to a record id's fused
score. -/
def pairContrib (ws : SearchWeights) (i : String) (p : String × List ScoredPoint) : ℚ :=
  wlookup ws p.1 * (p.2.map (rawContrib (denomOf p.2) i)).sum

/-- Closed form of a record id's fused score: the sum of the weighted
normalized contributions over all modality pairs. -/
def totalContrib (ws : SearchWeights) (l : List (String × List ScoredPoint))
    (i : String) : ℚ :=
  (l.map (pairContrib ws i)).sum

/-! ### Helper lemmas about the max-score accumulation -/

theorem le_foldl_maxStep (items : List ScoredPoint) (a : ℚ) :
    a ≤ items.foldl maxStep a := by
  induction items generalizing a with
  | nil => exact le_refl a
  | cons it rest ih =>
    rw [List.foldl_cons]
    refine le_trans ?_ (ih (maxStep a it))
    unfold maxStep
    cases it.score with
    | none => exact le_refl a
    | some s => exact le_max_left a s

theorem score_le_foldl_maxStep (items : List ScoredPoint) (sp : ScoredPoint) (s : ℚ)
    (hmem : sp ∈ items) (hs : sp.score = some s) (a : ℚ) :
    s ≤ items.foldl maxStep a := by
  induction items generalizing a with
  | nil => cases hmem
  | cons it rest ih =>
    rw [List.foldl_cons]
    rcases List.mem_cons.mp hmem with h | h
    · subst h
      refine le_trans ?_ (le_foldl_maxStep rest (maxStep a sp))
      simp only [maxStep, hs]
      exact le_max_right a s
    · exact ih h (maxStep a it)

theorem foldl_maxStep_le (items : List ScoredPoint) (b : ℚ)
    (hub : ∀ sp ∈ items, ∀ t, sp.score = some t → t ≤ b) :
    ∀ a, a ≤ b → items.foldl maxStep a ≤ b := by
  induction items with
  | nil => intro a ha; simpa using ha
  | cons it rest ih =>
    intro a ha
    rw [List.foldl_cons]
    refine ih (fun sp h t ht => hub sp (List.mem_cons_of_mem it h) t ht) _ ?_
    cases hsc : it.score with
    | none => simpa [maxStep, hsc] using ha
    | some s =>
      simp only [maxStep, hsc]
      exact max_le ha (hub it (List.mem_cons_self it rest) s hsc)

/-- Every record's raw score is bounded by `maxScoreList`. -/
theorem score_le_maxScoreList (items : List ScoredPoint) (sp : ScoredPoint) (s : ℚ)
    (hmem : sp ∈ items) (hs : sp.score = some s) : s ≤ maxScoreList items :=
  score_le_foldl_maxStep items sp s hmem hs 0

/-- The divisor chosen by `fuse_rankings` is always positive. -/
theorem denomOf_pos (items : List ScoredPoint) : 0 < denomOf items := by
  unfold denomOf
  split_ifs with h
  · exact lt_trans (by norm_num [fuseEps]) h
  · norm_num

/-! ### The closed form of a record's fused score -/

theorem idScoreOf_updateFused (acc : List FusedEntry) (sid : String) (d : ℚ)
    (mod : String) (s : ℚ) (pl : List (String × String)) (i : String) :
    idScoreOf (updateFused acc sid d mod s pl) i
      = idScoreOf acc i + (if sid = i then d else 0) := by
  induction acc with
  | nil =>
    simp only [updateFused, idScoreOf]
    split_ifs with h <;> simp
  | cons e rest ih =>
    simp only [updateFused]
    by_cases he : e.id = sid
    · simp only [he, if_pos rfl, idScoreOf]
      by_cases hi : sid = i <;> simp [hi]
    · simp only [if_neg he, idScoreOf]
      by_cases hi : e.id = i
      · have hsid : ¬ sid = i := fun hc => he (hi.symm ▸ hc ▸ rfl)
        rw [if_pos hi, if_pos hi, if_neg hsid]
        ring
      · rw [if_neg hi, if_neg hi, ih]

theorem idScoreOf_addPoint (w denom : ℚ) (mod : String) (acc : List FusedEntry)
    (sp : ScoredPoint) (i : String) :
    idScoreOf (addPoint w denom mod acc sp) i
      = idScoreOf acc i + w * rawContrib denom i sp := by
  cases hsc : sp.score with
  | none => simp [addPoint, hsc, rawContrib]
  | some s =>
    simp only [addPoint, hsc, rawContrib, idScoreOf_updateFused]
    by_cases hi : sp.id = i <;> simp [hi]

theorem idScoreOf_fuseModality (w denom : ℚ) (mod : String) (items : List ScoredPoint)
    (acc : List FusedEntry) (i : String) :
    idScoreOf (fuseModality w denom mod acc items) i
      = idScoreOf acc i + w * (items.map (rawContrib denom i)).sum := by
  induction items generalizing acc with
  | nil => simp [fuseModality]
  | cons sp rest ih =>
    simp only [fuseModality, List.foldl_cons] at *
    rw [ih (addPoint w denom mod acc sp), idScoreOf_addPoint, List.map_cons, List.sum_cons]
    ring

theorem idScoreOf_foldl_fuse (ws : SearchWeights) (l : List (String × List ScoredPoint))
    (acc : List FusedEntry) (i : String) :
    idScoreOf
        (l.foldl (fun acc p => fuseModality (wlookup ws p.1) (denomOf p.2) p.1 acc p.2) acc) i
      = idScoreOf acc i + totalContrib ws l i := by
  induction l generalizing acc with
  | nil => simp [totalContrib]
  | cons p rest ih =>
    rw [List.foldl_cons, ih, idScoreOf_fuseModality]
    simp only [totalContrib, List.map_cons, List.sum_cons, pairContrib]
    ring

/-- The fused score accumulated for a record id equals the weighted sum of
its per-modality normalized contributions. -/
theorem idScoreOf_fuseAll (ws : SearchWeights) (l : List (String × List ScoredPoint))
    (i : String) : idScoreOf (fuseAll ws l) i = totalContrib ws l i := by
  have h := idScoreOf_foldl_fuse ws l [] i
  simpa [fuseAll, idScoreOf] using h

theorem fuseModality_nil (w denom : ℚ) (mod : String) (acc : List FusedEntry) :
    fuseModality w denom mod acc [] = acc := rfl

theorem fuseModality_cons (w denom : ℚ) (mod : String) (acc : List FusedEntry)
    (sp : ScoredPoint) (rest : List ScoredPoint) :
    fuseModality w denom mod acc (sp :: rest)
      = fuseModality w denom mod (addPoint w denom mod acc sp) rest := rfl

/-- Pointwise comparison of mapped list sums. -/
theorem map_sum_le {α : Type} (l : List α) (f g : α → ℚ) (h : ∀ x ∈ l, f x ≤ g x) :
    (l.map f).sum ≤ (l.map g).sum := by
  induction l with
  | nil => simp
  | cons x rest ih =>
    simp only [List.map_cons, List.sum_cons]
    exact add_le_add (h x (List.mem_cons_self x rest))
      (ih fun y hy => h y (List.mem_cons_of_mem x hy))

/-! ### Entry-presence lemmas -/

theorem exists_id_updateFused_self (acc : List FusedEntry) (sid : String) (d : ℚ)
    (mod : String) (s : ℚ) (pl : List (String × String)) :
    ∃ e ∈ updateFused acc sid d mod s pl, e.id = sid := by
  induction acc with
  | nil => exact ⟨⟨sid, d, [(mod, s)], pl⟩, by simp [updateFused]⟩
  | cons e rest ih =>
    simp only [updateFused]
    by_cases he : e.id = sid
    · rw [if_pos he]
      exact ⟨_, List.mem_cons_self _ _, he⟩
    · rw [if_neg he]
      rcases ih with ⟨f, hf, hfid⟩
      exact ⟨f, List.mem_cons_of_mem e hf, hfid⟩

theorem exists_id_updateFused_mono (acc : List FusedEntry) (sid : String) (d : ℚ)
    (mod : String) (s : ℚ) (pl : List (String × String)) (i : String)
    (h : ∃ e ∈ acc, e.id = i) :
    ∃ e ∈ updateFused acc sid d mod s pl, e.id = i := by
  induction acc with
  | nil =>
    rcases h with ⟨e, he, _⟩
    cases he
  | cons e rest ih =>
    rcases h with ⟨f, hf, hfid⟩
    simp only [updateFused]
    rcases List.mem_cons.mp hf with rfl | hfr
    · by_cases he : f.id = sid
      · rw [if_pos he]
        exact ⟨_, List.mem_cons_self _ _, hfid⟩
      · rw [if_neg he]
        exact ⟨f, List.mem_cons_self _ _, hfid⟩
    · by_cases he : e.id = sid
      · rw [if_pos he]
        exact ⟨f, List.mem_cons_of_mem _ hfr, hfid⟩
      · rw [if_neg he]
        rcases ih ⟨f, hfr, hfid⟩ with ⟨g, hg, hgid⟩
        exact ⟨g, List.mem_cons_of_mem _ hg, hgid⟩

theorem exists_id_addPoint_mono (w denom : ℚ) (mod : String) (acc : List FusedEntry)
    (sp : ScoredPoint) (i : String) (h : ∃ e ∈ acc, e.id = i) :
    ∃ e ∈ addPoint w denom mod acc sp, e.id = i := by
  cases hsc : sp.score with
  | none => simpa [addPoint, hsc] using h
  | some s => simpa [addPoint, hsc] using
      exists_id_updateFused_mono acc sp.id (w * normScore denom s) mod s (sp.payload.getD []) i h

theorem exists_id_addPoint_self (w denom : ℚ) (mod : String) (acc : List FusedEntry)
    (sp : ScoredPoint) (s : ℚ) (hsc : sp.score = some s) :
    ∃ e ∈ addPoint w denom mod acc sp, e.id = sp.id := by
  simpa [addPoint, hsc] using
    exists_id_updateFused_self acc sp.id (w * normScore denom s) mod s (sp.payload.getD [])

theorem exists_id_fuseModality_mono (w denom : ℚ) (mod : String) (items : List ScoredPoint)
    (acc : List FusedEntry) (i : String) (h : ∃ e ∈ acc, e.id = i) :
    ∃ e ∈ fuseModality w denom mod acc items, e.id = i := by
  induction items generalizing acc with
  | nil => simpa [fuseModality_nil] using h
  | cons sp rest ih =>
    rw [fuseModality_cons]
    exact ih _ (exists_id_addPoint_mono w denom mod acc sp i h)

theorem exists_id_fuseModality_self (w denom : ℚ) (mod : String) (items : List ScoredPoint)
    (acc : List FusedEntry) (sp : ScoredPoint) (hmem : sp ∈ items) (s : ℚ)
    (hsc : sp.score = some s) :
    ∃ e ∈ fuseModality w denom mod acc items, e.id = sp.id := by
  induction items generalizing acc with
  | nil => cases hmem
  | cons it rest ih =>
    rw [fuseModality_cons]
    rcases List.mem_cons.mp hmem with rfl | hr
    · exact exists_id_fuseModality_mono w denom mod rest _ sp.id
        (exists_id_addPoint_self w denom mod acc sp s hsc)
    · exact ih _ hr

/-! ### Per-modality raw-score recording -/

theorem lookupA_setAssoc (l : List (String × ℚ)) (k : String) (v : ℚ) :
    lookupA (setAssoc l k v) k = some v := by
  induction l with
  | nil => simp [setAssoc, lookupA]
  | cons p rest ih =>
    simp only [setAssoc]
    by_cases hp : p.1 = k
    · rw [if_pos hp]
      simp [lookupA]
    · rw [if_neg hp]
      simp [lookupA, hp, ih]

theorem mem_updateFused_per (acc : List FusedEntry) (sid : String) (d : ℚ) (mod : String)
    (s : ℚ) (pl : List (String × String))
    (hacc : ∀ e ∈ acc, (lookupA e.per_modality mod).isSome) :
    ∀ e ∈ updateFused acc sid d mod s pl, (lookupA e.per_modality mod).isSome := by
  induction acc with
  | nil =>
    intro e he
    simp only [updateFused, List.mem_singleton] at he
    subst he
    simp [lookupA]
  | cons f rest ih =>
    intro e he
    simp only [updateFused] at he
    by_cases hf : f.id = sid
    · rw [if_pos hf] at he
      rcases List.mem_cons.mp he with rfl | hr
      · simp [lookupA_setAssoc]
      · exact hacc e (List.mem_cons_of_mem f hr)
    · rw [if_neg hf] at he
      rcases List.mem_cons.mp he with rfl | hr
      · exact hacc e (List.mem_cons_self e rest)
      · exact ih (fun g hg => hacc g (List.mem_cons_of_mem f hg)) e hr

theorem mem_addPoint_per (w denom : ℚ) (mod : String) (acc : List FusedEntry)
    (sp : ScoredPoint)
    (hacc : ∀ e ∈ acc, (lookupA e.per_modality mod).isSome) :
    ∀ e ∈ addPoint w denom mod acc sp, (lookupA e.per_modality mod).isSome := by
  cases hsc : sp.score with
  | none => simpa [addPoint, hsc] using hacc
  | some s => simpa [addPoint, hsc] using
      mem_updateFused_per acc sp.id (w * normScore denom s) mod s (sp.payload.getD []) hacc

theorem mem_fuseModality_per (w denom : ℚ) (mod : String) (items : List ScoredPoint)
    (acc : List FusedEntry)
    (hacc : ∀ e ∈ acc, (lookupA e.per_modality mod).isSome) :
    ∀ e ∈ fuseModality w denom mod acc items, (lookupA e.per_modality mod).isSome := by
  induction items generalizing acc with
  | nil => simpa [fuseModality_nil] using hacc
  | cons sp rest ih =>
    rw [fuseModality_cons]
    exact ih _ (mem_addPoint_per w denom mod acc sp hacc)

/-! ### Encoder post-processing over ℝ

The feature pipelines compute with IEEE floats; we model their arithmetic
exactly over ℝ.  All four encoders share the same tail: pad/truncate the
concatenated feature vector to the configured dimension, then divide by
`np.linalg.norm(v) + 1e-12`.  The radar encoder is embedded in full
(real-input DFT magnitude spectrum, fixed-bin resampling, tail); the
`np.linspace(...).astype(int)` downsampling index is modelled by its exact
value `⌊j·(M-1)/127⌋`. -/

/-- Sum of squares of a real vector, `‖v‖² = Σ v_i²`. -/
noncomputable def sumSq (v : List ℝ) : ℝ := (v.map fun x => x * x).sum

/-- The `1e-12` guard added to the Euclidean norm in `_l2_normalize`. -/
noncomputable def normEps : ℝ := 1/1000000000000

/-- The shared `_l2_normalize`: divide every component by `‖v‖ + 1e-12`. -/
noncomputable def l2_normalize (v : List ℝ) : List ℝ :=
  v.map fun x => x / (Real.sqrt (sumSq v) + normEps)

/-- The shared pad-right-with-zeros / truncate-right step forcing the
configured dimension. -/
noncomputable def fitDim (d : ℕ) (v : List ℝ) : List ℝ :=
  if v.length < d then v ++ List.replicate (d - v.length) 0 else v.take d

/-- One term `exp(-2πikn/N)` of the real-input DFT. -/
noncomputable def dftTerm (N k n : ℕ) : ℂ :=
  Complex.exp (-((2 * Real.pi * k * n / N : ℝ) : ℂ) * Complex.I)

/-- The spectrum `np.abs(np.fft.rfft(s))`: magnitudes of the first `⌊N/2⌋ + 1` DFT
coefficients. -/
noncomputable def rfftMag (s : List ℝ) : List ℝ :=
  (List.range (s.length / 2 + 1)).map fun k =>
    Complex.abs (∑ n ∈ Finset.range s.length, ((s.getD n 0 : ℝ) : ℂ) * dftTerm s.length k n)

/-- The radar fixed-bin resampling: zero-pad up to 128 bins, else sample at
the `linspace`-derived indices. -/
noncomputable def radarBins (m : List ℝ) : List ℝ :=
  if m.length < 128 then m ++ List.replicate (128 - m.length) 0
  else (List.range 128).map fun j => m.getD (j * (m.length - 1) / 127) 0

/-- The encoder `radar_embed`: DFT magnitude spectrum, resampled to 128 bins, fitted to
the configured radar dimension (128) and L2-normalized. -/
noncomputable def radar_embed (s : List ℝ) : List ℝ :=
  l2_normalize (fitDim 128 (radarBins (rfftMag s)))

theorem sumSq_nonneg (v : List ℝ) : 0 ≤ sumSq v := by
  refine List.sum_nonneg ?_
  intro x hx
  rcases List.mem_map.mp hx with ⟨y, _, rfl⟩
  exact mul_self_nonneg y

theorem sumSq_nil : sumSq [] = 0 := by simp [sumSq]

theorem sumSq_cons (x : ℝ) (v : List ℝ) : sumSq (x :: v) = x * x + sumSq v := by
  simp [sumSq]

theorem sumSq_append (u v : List ℝ) : sumSq (u ++ v) = sumSq u + sumSq v := by
  simp [sumSq]

theorem sumSq_replicate_zero (n : ℕ) : sumSq (List.replicate n (0 : ℝ)) = 0 := by
  simp [sumSq, List.map_replicate]

theorem sumSq_map_div (v : List ℝ) (a : ℝ) :
    sumSq (v.map fun x => x / a) = sumSq v / (a * a) := by
  induction v with
  | nil => simp [sumSq]
  | cons x rest ih =>
    simp only [List.map_cons, sumSq_cons, ih]
    rw [div_mul_div_comm, div_add_div_same]

theorem length_l2_normalize (v : List ℝ) : (l2_normalize v).length = v.length := by
  simp [l2_normalize]

theorem length_fitDim (d : ℕ) (v : List ℝ) : (fitDim d v).length = d := by
  unfold fitDim
  split_ifs with h
  · simp only [List.length_append, List.length_replicate]
    omega
  · simp only [List.length_take]
    omega

theorem normEps_pos : (0 : ℝ) < normEps := by norm_num [normEps]

/-- The exact output norm of `_l2_normalize`: `‖v‖ / (‖v‖ + 1e-12)`. -/
theorem sqrt_sumSq_l2_normalize (v : List ℝ) :
    Real.sqrt (sumSq (l2_normalize v))
      = Real.sqrt (sumSq v) / (Real.sqrt (sumSq v) + normEps) := by
  have hS : 0 ≤ sumSq v := sumSq_nonneg v
  have hn : 0 ≤ Real.sqrt (sumSq v) := Real.sqrt_nonneg _
  have ha : 0 < Real.sqrt (sumSq v) + normEps :=
    add_pos_of_nonneg_of_pos hn normEps_pos
  rw [l2_normalize, sumSq_map_div]
  nth_rewrite 1 [← Real.mul_self_sqrt hS]
  rw [← div_mul_div_comm]
  exact Real.sqrt_mul_self (div_nonneg hn ha.le)

/-- Whenever the fitted feature vector has norm at least `1e-7`, the
normalized output's norm is within `1e-5` of 1. -/
theorem l2_normalize_norm_close (v : List ℝ)
    (h : (1/10000000 : ℝ) ≤ Real.sqrt (sumSq v)) :
    |Real.sqrt (sumSq (l2_normalize v)) - 1| ≤ 1/100000 := by
  rw [sqrt_sumSq_l2_normalize]
  have hn : 0 ≤ Real.sqrt (sumSq v) := Real.sqrt_nonneg _
  have ha : 0 < Real.sqrt (sumSq v) + normEps :=
    add_pos_of_nonneg_of_pos hn normEps_pos
  have hdiff : Real.sqrt (sumSq v) / (Real.sqrt (sumSq v) + normEps) - 1
      = -(normEps / (Real.sqrt (sumSq v) + normEps)) := by
    field_simp
  rw [hdiff, abs_neg, abs_of_nonneg (div_nonneg normEps_pos.le ha.le)]
  have hb : (1/10000000 : ℝ) ≤ Real.sqrt (sumSq v) + normEps :=
    le_trans h (le_add_of_nonneg_right normEps_pos.le)
  calc normEps / (Real.sqrt (sumSq v) + normEps)
      ≤ normEps / (1/10000000) := by
        apply div_le_div_of_nonneg_left normEps_pos.le (by norm_num) hb
    _ ≤ 1/100000 := by norm_num [normEps]

/-- A degenerate all-zero feature vector yields exactly the all-zero
output vector. -/
theorem l2_normalize_fitDim_zero (d : ℕ) (v : List ℝ) (hv : ∀ x ∈ v, x = 0) :
    l2_normalize (fitDim d v) = List.replicate d 0 := by
  have hall : ∀ x ∈ fitDim d v, x = 0 := by
    intro x hx
    unfold fitDim at hx
    split_ifs at hx with h
    · rcases List.mem_append.mp hx with h1 | h1
      · exact hv x h1
      · exact List.eq_of_mem_replicate h1
    · exact hv x (List.take_subset d v hx)
  refine List.eq_replicate_iff.mpr ⟨?_, ?_⟩
  · rw [length_l2_normalize, length_fitDim]
  · intro b hb
    rcases List.mem_map.mp hb with ⟨x, hx, rfl⟩
    rw [hall x hx, zero_div]

/-- The text encoder's hashing accumulation: `HashingVectorizer` with
`n_features=256`, `alternate_sign=False` and `norm=None` produces a dense
256-bucket vector whose `j`-th entry counts the analyzed tokens hashed to
bucket `j`.  The analyzer (lowercasing, tokenization, English stop-word
removal) and sklearn's internal hash are taken as parameters — `tokens`
is the post-analysis token list and `h` the bucket assignment — because
the 256-bucket count structure and the normalization behavior do not
depend on their choice. -/
noncomputable def hashCounts (h : String → Fin 256) (tokens : List String) : List ℝ :=
  (List.range 256).map fun j => ((tokens.filter fun t => (h t).val = j).length : ℝ)

/-- The encoder `text_embed`: dense hashed-count vector, L2-normalized by
the shared `_l2_normalize` (the text pipeline never pads or truncates —
its length 256 comes from the bucket count itself). -/
noncomputable def text_embed (h : String → Fin 256) (tokens : List String) : List ℝ :=
  l2_normalize (hashCounts h tokens)

/-- A vector of all zeros normalizes to itself (division of 0 by the
guarded norm). -/
theorem l2_normalize_of_all_zero (v : List ℝ) (hv : ∀ x ∈ v, x = 0) :
    l2_normalize v = List.replicate v.length 0 := by
  refine List.eq_replicate_iff.mpr ⟨length_l2_normalize v, ?_⟩
  intro b hb
  rcases List.mem_map.mp hb with ⟨x, hx, rfl⟩
  rw [hv x hx, zero_div]

theorem length_hashCounts (h : String → Fin 256) (tokens : List String) :
    (hashCounts h tokens).length = 256 := by
  simp [hashCounts]

theorem length_text_embed (h : String → Fin 256) (tokens : List String) :
    (text_embed h tokens).length = 256 := by
  rw [text_embed, length_l2_normalize, length_hashCounts]

theorem text_embed_nil (h : String → Fin 256) :
    text_embed h [] = List.replicate 256 0 := by
  have hz : ∀ x ∈ hashCounts h [], x = 0 := by
    intro x hx
    rcases List.mem_map.mp hx with ⟨j, _, rfl⟩
    simp
  have := l2_normalize_of_all_zero (hashCounts h []) hz
  rw [length_hashCounts] at this
  rw [text_embed, this]

/-- A surviving token puts at least one full count in some bucket, so the
count vector has norm-squared at least 1. -/
theorem one_le_sumSq_hashCounts (h : String → Fin 256) (tokens : List String)
    (ht : tokens ≠ []) : (1:ℝ) ≤ sumSq (hashCounts h tokens) := by
  rcases List.exists_mem_of_ne_nil tokens ht with ⟨t0, ht0⟩
  have hj0mem : (h t0).val ∈ List.range 256 := List.mem_range.mpr (h t0).isLt
  have hmemc : ((tokens.filter fun t => (h t).val = (h t0).val).length : ℝ)
      ∈ hashCounts h tokens := by
    unfold hashCounts
    exact List.mem_map_of_mem _ hj0mem
  have hc1 : (1:ℝ) ≤ ((tokens.filter fun t => (h t).val = (h t0).val).length : ℝ) := by
    have hmem : t0 ∈ tokens.filter fun t => (h t).val = (h t0).val :=
      List.mem_filter.mpr ⟨ht0, by simp⟩
    have hpos : 0 < (tokens.filter fun t => (h t).val = (h t0).val).length :=
      List.length_pos.mpr (List.ne_nil_of_mem hmem)
    exact_mod_cast hpos
  have hmemcc : ((tokens.filter fun t => (h t).val = (h t0).val).length : ℝ)
        * ((tokens.filter fun t => (h t).val = (h t0).val).length : ℝ)
      ∈ (hashCounts h tokens).map fun x => x * x :=
    List.mem_map_of_mem _ hmemc
  have hnn : ∀ x ∈ (hashCounts h tokens).map fun x => x * x, 0 ≤ x := by
    intro x hx
    rcases List.mem_map.mp hx with ⟨y, _, rfl⟩
    exact mul_self_nonneg y
  have hle := List.single_le_sum hnn _ hmemcc
  rw [sumSq]
  nlinarith

theorem text_embed_norm (h : String → Fin 256) (tokens : List String)
    (ht : tokens ≠ []) :
    |Real.sqrt (sumSq (text_embed h tokens)) - 1| ≤ 1/100000 := by
  unfold text_embed
  apply l2_normalize_norm_close
  have h1 : (1:ℝ) ≤ sumSq (hashCounts h tokens) := one_le_sumSq_hashCounts h tokens ht
  have h2 : (1:ℝ) ≤ Real.sqrt (sumSq (hashCounts h tokens)) := by
    have := Real.sqrt_le_sqrt h1
    rwa [Real.sqrt_one] at this
  linarith

theorem length_radar_embed (s : List ℝ) : (radar_embed s).length = 128 := by
  unfold radar_embed
  rw [length_l2_normalize, length_fitDim]

/-- The DFT of a single-sample signal is that sample itself. -/
theorem rfftMag_single (x : ℝ) : rfftMag [x] = [|x|] := by
  unfold rfftMag dftTerm
  norm_num [List.range_succ, Finset.sum_range_one, Complex.abs_ofReal]

theorem radarBins_single (x : ℝ) : radarBins [x] = [x] ++ List.replicate 127 0 := by
  unfold radarBins
  norm_num

theorem fitDim_single_pad (x : ℝ) :
    fitDim 128 ([x] ++ List.replicate 127 0) = [x] ++ List.replicate 127 0 := by
  unfold fitDim
  norm_num

/-- Embedding the tiny (but valid and nonzero) radar signal `[1e-12]`
produces an output vector of Euclidean norm exactly 1/2: the feature
norm `1e-12` is divided by `1e-12 + 1e-12`. -/
theorem radar_embed_eps :
    Real.sqrt (sumSq (radar_embed [(1/1000000000000 : ℝ)])) = 1/2 := by
  have hc : (0:ℝ) ≤ 1/1000000000000 := by norm_num
  have h1 : rfftMag [(1/1000000000000 : ℝ)] = [(1/1000000000000 : ℝ)] := by
    rw [rfftMag_single, abs_of_nonneg hc]
  unfold radar_embed
  rw [h1, radarBins_single, fitDim_single_pad, sqrt_sumSq_l2_normalize]
  have hsum : sumSq ([(1/1000000000000 : ℝ)] ++ List.replicate 127 0)
      = (1/1000000000000 : ℝ) * (1/1000000000000 : ℝ) := by
    rw [sumSq_append, sumSq_replicate_zero, sumSq_cons, sumSq_nil]
    ring
  rw [hsum, Real.sqrt_mul_self hc]
  norm_num [normEps]

/-! ### Claim theorems -/

/-- Predicate used to count equality clauses on a given payload key. -/
def isMatchKey (k : String) : FieldCondition → Bool
  | FieldCondition.matchValue k2 _ => if k2 = k then true else false
  | FieldCondition.tsRange _ _ _ => false

/-- Predicate used to count range clauses on a given payload key. -/
def isRangeKey (k : String) : FieldCondition → Bool
  | FieldCondition.matchValue _ _ => false
  | FieldCondition.tsRange k2 _ _ => if k2 = k then true else false

/-- C1: `fuse_rankings` substitutes 1.0 for the divisor whenever a
modality's maximum raw score is at most the 1e-9 epsilon, and whenever
the maximum exceeds the epsilon, any candidate holding the maximum raw
score gets normalized score exactly 1. -/
theorem C1_top_normalizes_to_one (items : List ScoredPoint) :
    (maxScoreList items ≤ fuseEps → denomOf items = 1)
    ∧ ∀ sp ∈ items, ∀ s : ℚ, sp.score = some s →
        (∀ q ∈ items, ∀ t : ℚ, q.score = some t → t ≤ s) →
        fuseEps < maxScoreList items →
        normScore (denomOf items) s = 1 := by
  constructor
  · intro h
    unfold denomOf
    rw [if_neg (not_lt.mpr h)]
  · intro sp hmem s hsc htop hmax
    have hepos : (0:ℚ) < fuseEps := by norm_num [fuseEps]
    have hle : s ≤ maxScoreList items := score_le_maxScoreList items sp s hmem hsc
    have hub : maxScoreList items ≤ max 0 s :=
      foldl_maxStep_le items (max 0 s)
        (fun q hq t ht => le_trans (htop q hq t ht) (le_max_right 0 s)) 0 (le_max_left 0 s)
    have hs0 : 0 ≤ s := by
      by_contra hneg
      push_neg at hneg
      rw [max_eq_left hneg.le] at hub
      linarith
    have hseq : s = maxScoreList items := by
      refine le_antisymm hle ?_
      rwa [max_eq_right hs0] at hub
    have hsne : s ≠ 0 := by
      intro h0
      rw [← hseq, h0] at hmax
      linarith
    unfold denomOf
    rw [if_pos hmax, normScore, ← hseq]
    exact div_self hsne

/-- C1 witness: a single candidate with raw score 1 normalizes to 1, and
an empty modality list gets divisor 1. -/
theorem C1_witness :
    normScore (denomOf [⟨"p", some 1, none⟩]) 1 = 1 ∧ denomOf [] = 1 :=
  ⟨(C1_top_normalizes_to_one [⟨"p", some 1, none⟩]).2 ⟨"p", some 1, none⟩
      (List.mem_singleton.mpr rfl) 1 rfl
      (by
        intro q hq t ht
        rw [List.mem_singleton] at hq
        subst hq
        simp only [Option.some.injEq] at ht
        linarith)
      (by norm_num [maxScoreList, maxStep, fuseEps]),
   (C1_top_normalizes_to_one []).1 (by norm_num [maxScoreList, fuseEps])⟩

/-- C3: wherever `is_novel_scene` returns a boolean at all (the list is
non-empty or `min_results ≥ 1`), it returns `true` iff fewer than
`min_results` fused results were produced or the best fused score is
strictly below the threshold; an exact tie with the threshold yields
`false`. -/
theorem C3_is_novel_iff (res : List FusedEntry) (thr : ℚ) (minr : ℤ)
    (h : res ≠ [] ∨ 1 ≤ minr) :
    ∃ b, is_novel_scene res thr minr = some b
      ∧ (b = true ↔ ((res.length : ℤ) < minr
          ∨ ∃ e l, res = e :: l ∧ e.fused_score < thr)) := by
  unfold is_novel_scene
  by_cases hlen : (res.length : ℤ) < minr
  · refine ⟨true, by rw [if_pos hlen], ?_⟩
    simp [hlen]
  · rw [if_neg hlen]
    cases res with
    | nil =>
      exfalso
      rcases h with h1 | h1
      · exact h1 rfl
      · simp only [List.length_nil, Nat.cast_zero] at hlen
        omega
    | cons e l =>
      refine ⟨decide (e.fused_score < thr), rfl, ?_⟩
      simp only [decide_eq_true_eq]
      constructor
      · intro hb
        exact Or.inr ⟨e, l, rfl, hb⟩
      · rintro (hc | ⟨e2, l2, heq, hlt⟩)
        · exact absurd hc hlen
        · injection heq with h1 h2
          rw [h1]
          exact hlt

/-- C3 witness: a fused list of length 2 with `min_results` 3 is novel
regardless of scores. -/
theorem C3_witness :
    ∃ b, is_novel_scene [⟨"x", 1, [], []⟩, ⟨"y", 1, [], []⟩] (78/100) 3 = some b
      ∧ (b = true ↔ ((([⟨"x", 1, [], []⟩, ⟨"y", 1, [], []⟩] : List FusedEntry).length : ℤ) < 3
          ∨ ∃ e l, ([⟨"x", 1, [], []⟩, ⟨"y", 1, [], []⟩] : List FusedEntry) = e :: l
              ∧ e.fused_score < 78/100)) :=
  C3_is_novel_iff [⟨"x", 1, [], []⟩, ⟨"y", 1, [], []⟩] (78/100) 3 (Or.inr (by norm_num))

/-- C9: `is_novel_scene` fails to return a boolean (raises `IndexError`)
exactly when the fused list is empty and `min_results ≤ 0`; it is total
on every other input. -/
theorem C9_partiality (res : List FusedEntry) (thr : ℚ) (minr : ℤ) :
    is_novel_scene res thr minr = none ↔ (res = [] ∧ minr ≤ 0) := by
  unfold is_novel_scene
  cases res with
  | nil =>
    by_cases h : ((List.length ([] : List FusedEntry) : ℤ)) < minr
    · rw [if_pos h]
      simp only [List.length_nil, Nat.cast_zero] at h
      simp
      omega
    · rw [if_neg h]
      simp only [List.length_nil, Nat.cast_zero] at h
      simp
      omega
  | cons e l =>
    by_cases h : (((e :: l).length : ℤ)) < minr
    · rw [if_pos h]
      simp
    · rw [if_neg h]
      simp

/-- C7: `_make_filter` returns no filter iff every criterion is absent;
otherwise the filter holds exactly one equality clause per present
categorical field, exactly one inclusive `ts` range clause when either
timestamp bound is present (carrying both bounds), nothing else, and is
never an empty-but-present filter. -/
theorem C7_filter_builder (w t r lb : Option String) (t1 t2 : Option ℤ) :
    (make_filter w t r lb t1 t2 = none
       ↔ w = none ∧ t = none ∧ r = none ∧ lb = none ∧ t1 = none ∧ t2 = none)
    ∧ ∀ f, make_filter w t r lb t1 t2 = some f →
        f.must ≠ []
        ∧ f.must.countP (isMatchKey "weather") = (if w.isSome then 1 else 0)
        ∧ f.must.countP (isMatchKey "time_of_day") = (if t.isSome then 1 else 0)
        ∧ f.must.countP (isMatchKey "road_type") = (if r.isSome then 1 else 0)
        ∧ f.must.countP (isMatchKey "location_bucket") = (if lb.isSome then 1 else 0)
        ∧ f.must.countP (isRangeKey "ts") = (if t1.isSome || t2.isSome then 1 else 0)
        ∧ ((t1.isSome || t2.isSome) = true → FieldCondition.tsRange "ts" t1 t2 ∈ f.must)
        ∧ f.must.length = (if w.isSome then 1 else 0) + (if t.isSome then 1 else 0)
            + (if r.isSome then 1 else 0) + (if lb.isSome then 1 else 0)
            + (if t1.isSome || t2.isSome then 1 else 0) := by
  constructor
  · rcases w with _ | wv <;> rcases t with _ | tv <;> rcases r with _ | rv <;>
      rcases lb with _ | lbv <;> rcases t1 with _ | t1v <;> rcases t2 with _ | t2v <;>
      simp [make_filter]
  · intro f hf
    rcases w with _ | wv <;> rcases t with _ | tv <;> rcases r with _ | rv <;>
      rcases lb with _ | lbv <;> rcases t1 with _ | t1v <;> rcases t2 with _ | t2v <;>
      (simp [make_filter] at hf
       all_goals
         subst hf
         simp [isMatchKey, isRangeKey, List.countP_cons, List.countP_nil])

/-- C7 witness: weather plus a lower timestamp bound produce exactly one
equality clause on `weather`. -/
theorem C7_witness :
    (⟨[FieldCondition.matchValue "weather" "rain",
       FieldCondition.tsRange "ts" (some 5) none]⟩ : QFilter).must.countP
        (isMatchKey "weather") = 1 :=
  ((C7_filter_builder (some "rain") none none none (some 5) none).2
      ⟨[FieldCondition.matchValue "weather" "rain",
        FieldCondition.tsRange "ts" (some 5) none]⟩ (by decide)).2.1

/-- C2 (amended): the fused ranking is sorted in descending order of
fused score — entries with equal fused score stay in the stable sort's
first-insertion order, not ascending identifier order — and, for
`top_k ≥ 0`, the list is truncated to at most `top_k` entries. -/
theorem C2_sorted_truncated (l : List (String × List ScoredPoint)) (ws : SearchWeights)
    (k : ℤ) :
    List.Pairwise rFused (fuse_rankings l ws k)
    ∧ (0 ≤ k → ((fuse_rankings l ws k).length : ℤ) ≤ k) := by
  constructor
  · have hs : List.Pairwise rFused (List.insertionSort rFused (fuseAll ws l)) :=
      List.sorted_insertionSort rFused (fuseAll ws l)
    unfold fuse_rankings sliceTo
    exact List.Pairwise.sublist (List.take_sublist _ _) hs
  · intro hk
    unfold fuse_rankings sliceTo
    rw [if_pos hk]
    have h1 : (List.take k.toNat (List.insertionSort rFused (fuseAll ws l))).length
        ≤ k.toNat := by
      rw [List.length_take]
      exact min_le_left _ _
    calc ((List.take k.toNat (List.insertionSort rFused (fuseAll ws l))).length : ℤ)
        ≤ (k.toNat : ℤ) := by exact_mod_cast h1
      _ = k := Int.toNat_of_nonneg hk

/-- C2 witness: a one-modality search truncated to 1 entry. -/
theorem C2_witness :
    ((fuse_rankings [("vision", [⟨"p", some 1, none⟩])] defaultWeights 1).length : ℤ)
      ≤ 1 :=
  (C2_sorted_truncated [("vision", [⟨"p", some 1, none⟩])] defaultWeights 1).2
    (by norm_num)

/-- C2 counterexample: two candidates tied at fused score 1 are returned
as `["b", "a"]` — the stable insertion order — although `"a" < "b"`, so
ties are not broken by ascending record identifier. -/
theorem C2_counterexample :
    ((fuse_rankings [("vision", [⟨"b", some 1, none⟩, ⟨"a", some 1, none⟩])]
        ⟨1, 0, 0, 0⟩ 10).map FusedEntry.id = ["b", "a"])
    ∧ ((fuse_rankings [("vision", [⟨"b", some 1, none⟩, ⟨"a", some 1, none⟩])]
        ⟨1, 0, 0, 0⟩ 10).map FusedEntry.fused_score = [1, 1])
    ∧ ("a" : String) < "b" := by
  refine ⟨?_, ?_, String.lt_iff_toList_lt.mpr (by decide)⟩ <;>
    norm_num [fuse_rankings, fuseAll, fuseModality, addPoint, updateFused, sliceTo,
      denomOf, maxScoreList, maxStep, normScore, wlookup, fuseEps,
      List.insertionSort, List.orderedInsert, rFused]

/-- C4 (amended): raising one modality's weight (all others fixed) never
decreases the fused score of a record appearing in that modality's result
set, provided the record's raw scores there are nonnegative.  (With a
negative raw score the fused score strictly decreases — see the
counterexample.) -/
theorem C4_weight_monotone (m : String) (ws1 ws2 : SearchWeights)
    (l : List (String × List ScoredPoint)) (i : String)
    (hm : wlookup ws1 m ≤ wlookup ws2 m)
    (hother : ∀ m2, m2 ≠ m → wlookup ws1 m2 = wlookup ws2 m2)
    (hnonneg : ∀ p ∈ l, p.1 = m → ∀ sp ∈ p.2, sp.id = i →
        ∀ s : ℚ, sp.score = some s → 0 ≤ s) :
    idScoreOf (fuseAll ws1 l) i ≤ idScoreOf (fuseAll ws2 l) i := by
  rw [idScoreOf_fuseAll, idScoreOf_fuseAll]
  unfold totalContrib
  apply map_sum_le
  intro p hp
  unfold pairContrib
  by_cases hpm : p.1 = m
  · have hsum : 0 ≤ (p.2.map (rawContrib (denomOf p.2) i)).sum := by
      apply List.sum_nonneg
      intro x hx
      rcases List.mem_map.mp hx with ⟨sp, hsp, rfl⟩
      unfold rawContrib
      split_ifs with hid
      · cases hsc : sp.score with
        | none => simp
        | some s =>
          have hs := hnonneg p hp hpm sp hsp hid s hsc
          simp only [hsc, normScore]
          exact div_nonneg hs (denomOf_pos p.2).le
      · exact le_refl 0
    rw [hpm]
    exact mul_le_mul_of_nonneg_right hm hsum
  · rw [hother p.1 hpm]

/-- C4 witness: raising the vision weight from 1/10 to 1/5 raises the
fused score of a nonnegative-scored vision record from 1/20 to 1/10. -/
theorem C4_witness :
    idScoreOf (fuseAll (⟨1/10, 0, 0, 0⟩ : SearchWeights)
        [("vision", [⟨"A", some 1, none⟩, ⟨"B", some 2, none⟩])]) "A"
      ≤ idScoreOf (fuseAll (⟨1/5, 0, 0, 0⟩ : SearchWeights)
        [("vision", [⟨"A", some 1, none⟩, ⟨"B", some 2, none⟩])]) "A" :=
  C4_weight_monotone "vision" ⟨1/10, 0, 0, 0⟩ ⟨1/5, 0, 0, 0⟩
    [("vision", [⟨"A", some 1, none⟩, ⟨"B", some 2, none⟩])] "A"
    (by norm_num [wlookup])
    (by
      intro m2 hm2
      unfold wlookup
      split_ifs <;> simp_all)
    (by
      intro p hp hpm sp hsp hid s hsc
      rw [List.mem_singleton] at hp
      subst hp
      simp only [List.mem_cons, List.mem_singleton] at hsp
      rcases hsp with rfl | rfl | h
      · simp only [Option.some.injEq] at hsc
        linarith
      · simp only [Option.some.injEq] at hsc
        linarith
      · cases h)

/-- C4 counterexample: record "A" has raw vision score −1 (modality max
2, so its normalized score is −1/2); raising the vision weight from 1/10
to 1/5 strictly lowers its fused score from −1/20 to −1/10, with all
other weights fixed at 0. -/
theorem C4_counterexample :
    ((⟨1/10, 0, 0, 0⟩ : SearchWeights).vision < (⟨1/5, 0, 0, 0⟩ : SearchWeights).vision)
    ∧ idScoreOf (fuse_rankings [("vision", [⟨"A", some (-1), none⟩, ⟨"B", some 2, none⟩])]
          ⟨1/5, 0, 0, 0⟩ 20) "A"
      < idScoreOf (fuse_rankings [("vision", [⟨"A", some (-1), none⟩, ⟨"B", some 2, none⟩])]
          ⟨1/10, 0, 0, 0⟩ 20) "A" := by
  constructor
  · norm_num
  · have hBA : ("B" : String) ≠ "A" := by decide
    norm_num [hBA, fuse_rankings, fuseAll, fuseModality, addPoint, updateFused, idScoreOf,
      sliceTo, denomOf, maxScoreList, maxStep, normScore, wlookup, fuseEps,
      List.insertionSort, List.orderedInsert, rFused]

/-- C5 (amended): permuting the modality result-set map never changes any
record's fused score; but the returned lists themselves need not be
identical — tied entries can change order and a record's payload comes
from the first modality processed (see the counterexample). -/
theorem C5_fused_score_perm_invariant (ws : SearchWeights)
    (l1 l2 : List (String × List ScoredPoint)) (h : l1.Perm l2) (i : String) :
    idScoreOf (fuseAll ws l1) i = idScoreOf (fuseAll ws l2) i := by
  rw [idScoreOf_fuseAll, idScoreOf_fuseAll]
  unfold totalContrib
  exact (h.map (pairContrib ws i)).sum_eq

/-- C5 witness: swapping the two modalities leaves record "A"'s fused
score unchanged. -/
theorem C5_witness :
    idScoreOf (fuseAll ⟨1/2, 1/2, 0, 0⟩
        [("vision", [⟨"A", some 1, none⟩]), ("lidar", [⟨"B", some 1, none⟩])]) "A"
      = idScoreOf (fuseAll ⟨1/2, 1/2, 0, 0⟩
        [("lidar", [⟨"B", some 1, none⟩]), ("vision", [⟨"A", some 1, none⟩])]) "A" :=
  C5_fused_score_perm_invariant ⟨1/2, 1/2, 0, 0⟩ _ _ (List.Perm.swap _ _ _) "A"

/-- C5 counterexample: permuting the two modality result sets (records
"A" and "B" both fuse to 1/2) changes the returned order from
`["A", "B"]` to `["B", "A"]` — the sorted lists are not identical. -/
theorem C5_counterexample :
    (([("vision", [⟨"A", some 1, none⟩]), ("lidar", [⟨"B", some 1, none⟩])]
        : List (String × List ScoredPoint)).Perm
        [("lidar", [⟨"B", some 1, none⟩]), ("vision", [⟨"A", some 1, none⟩])])
    ∧ ((fuse_rankings [("vision", [⟨"A", some 1, none⟩]), ("lidar", [⟨"B", some 1, none⟩])]
        ⟨1/2, 1/2, 0, 0⟩ 20).map FusedEntry.id = ["A", "B"])
    ∧ ((fuse_rankings [("lidar", [⟨"B", some 1, none⟩]), ("vision", [⟨"A", some 1, none⟩])]
        ⟨1/2, 1/2, 0, 0⟩ 20).map FusedEntry.id = ["B", "A"])
    ∧ (["A", "B"] : List String) ≠ ["B", "A"] := by
  refine ⟨List.Perm.swap _ _ _, ?_, ?_, by decide⟩ <;>
    norm_num [fuse_rankings, fuseAll, fuseModality, addPoint, updateFused, sliceTo,
      denomOf, maxScoreList, maxStep, normScore, wlookup, fuseEps,
      List.insertionSort, List.orderedInsert, rFused]

/-- C8 (amended): the fused-search path performs no validation at all: a
`top_k` of 0 silently yields an empty result list (no error is raised
before or instead of the store queries), and the supplied weight — of
any sign — multiplies the normalized scores unclamped. -/
theorem C8_no_validation (store : String → Option QFilter → ℤ → List ScoredPoint)
    (qvs : List (String × List ℚ)) (ws : Option SearchWeights)
    (lim : ℤ) (weather tod rt lb : Option String) (t1 t2 : Option ℤ) :
    search_fused store qvs ws lim 0 weather tod rt lb t1 t2 = []
    ∧ ∀ (w : ℚ) (items : List ScoredPoint) (i : String),
        idScoreOf (fuseAll ⟨w, 0, 0, 0⟩ [("vision", items)]) i
          = w * (items.map (rawContrib (denomOf items) i)).sum := by
  constructor
  · simp [search_fused, fuse_rankings, sliceTo]
  · intro w items i
    rw [idScoreOf_fuseAll]
    unfold totalContrib pairContrib wlookup
    simp

/-- C8 counterexample: a fused search configured with the malformed
weights (vision −1) and `top_k` 0 returns the empty list instead of
failing, and with `top_k` 20 the store's candidate comes back with fused
score −1 — the negative weight was used as-is, after the store was
queried. -/
theorem C8_counterexample :
    search_fused (fun m _ _ => if m = "vision" then [⟨"p1", some (1/2), none⟩] else [])
        [("vision", [1])] (some ⟨-1, 0, 0, 0⟩) 30 0 none none none none none none = []
    ∧ idScoreOf (search_fused
        (fun m _ _ => if m = "vision" then [⟨"p1", some (1/2), none⟩] else [])
        [("vision", [1])] (some ⟨-1, 0, 0, 0⟩) 30 20 none none none none none none)
        "p1" = -1 := by
  constructor <;>
    norm_num [search_fused, make_filter, lookupVec, fuse_rankings, fuseAll, fuseModality,
      addPoint, updateFused, idScoreOf, sliceTo, denomOf, maxScoreList, maxStep,
      normScore, wlookup, fuseEps, List.insertionSort, List.orderedInsert, rFused,
      List.filterMap]

/-- C10: a modality name outside the four known ones gets weight 0, so
candidates supplied under it contribute 0 to every fused score, yet they
are still inserted as entries — with their raw score recorded under that
modality name — and appear in the truncated `top_k` output. -/
theorem C10_unknown_modality (m : String) (ws : SearchWeights)
    (hm : m ∉ (["vision", "lidar", "radar", "text"] : List String)) :
    wlookup ws m = 0
    ∧ (∀ items i, idScoreOf (fuseAll ws [(m, items)]) i = 0)
    ∧ ∀ (items : List ScoredPoint) (k : ℤ),
        ((fuseAll ws [(m, items)]).length : ℤ) ≤ k →
        ∀ sp ∈ items, (sp.score).isSome →
          ∃ e ∈ fuse_rankings [(m, items)] ws k,
            e.id = sp.id ∧ (lookupA e.per_modality m).isSome := by
  simp only [List.mem_cons, List.mem_singleton, not_or] at hm
  obtain ⟨h1, h2, h3, h4⟩ : m ≠ "vision" ∧ m ≠ "lidar" ∧ m ≠ "radar" ∧ m ≠ "text" := by
    tauto
  have hw : wlookup ws m = 0 := by
    unfold wlookup
    rw [if_neg h1, if_neg h2, if_neg h3, if_neg h4]
  refine ⟨hw, ?_, ?_⟩
  · intro items i
    rw [idScoreOf_fuseAll]
    unfold totalContrib pairContrib
    simp [hw]
  · intro items k hk sp hmem hsome
    rcases Option.isSome_iff_exists.mp hsome with ⟨s, hsc⟩
    have hfa : fuseAll ws [(m, items)]
        = fuseModality (wlookup ws m) (denomOf items) m [] items := by
      simp [fuseAll]
    have hex : ∃ e ∈ fuseAll ws [(m, items)], e.id = sp.id := by
      rw [hfa]
      exact exists_id_fuseModality_self _ _ m items [] sp hmem s hsc
    have hper : ∀ e ∈ fuseAll ws [(m, items)], (lookupA e.per_modality m).isSome := by
      rw [hfa]
      exact mem_fuseModality_per _ _ m items [] (by intro e he; cases he)
    rcases hex with ⟨e, he, heid⟩
    have hsort : e ∈ List.insertionSort rFused (fuseAll ws [(m, items)]) :=
      (List.perm_insertionSort rFused _).mem_iff.mpr he
    have hk0 : (0:ℤ) ≤ k :=
      le_trans (Int.ofNat_nonneg _) hk
    have hlen : (List.insertionSort rFused (fuseAll ws [(m, items)])).length ≤ k.toNat := by
      rw [List.length_insertionSort]
      omega
    refine ⟨e, ?_, heid, hper e he⟩
    unfold fuse_rankings sliceTo
    rw [if_pos hk0, List.take_of_length_le hlen]
    exact hsort

/-- C10 witness: a candidate under the unknown modality "sonar" occupies
a slot of the top-20 output with its raw score recorded. -/
theorem C10_witness :
    ∃ e ∈ fuse_rankings [("sonar", [⟨"p", some 1, some [("weather", "rain")]⟩])]
        defaultWeights 20,
      e.id = "p" ∧ (lookupA e.per_modality "sonar").isSome :=
  (C10_unknown_modality "sonar" defaultWeights (by decide)).2.2
    [⟨"p", some 1, some [("weather", "rain")]⟩] 20
    (by norm_num [fuseAll, fuseModality, addPoint, updateFused, wlookup, denomOf,
      maxScoreList, maxStep, normScore, fuseEps])
    ⟨"p", some 1, some [("weather", "rain")]⟩ (List.mem_singleton.mpr rfl) rfl

/-- C6 (amended): the shared encoder tail (pad/truncate to the target
dimension, then divide by `‖v‖ + 1e-12`) always outputs exactly the
target length; an all-zero feature vector maps to exactly the zero
vector; and the output norm equals `‖v‖/(‖v‖+1e-12)`, which is within
1e-5 of 1 whenever the fitted feature vector's norm is at least 1e-7.
The radar encoder (embedded in full) outputs 128 components on every
well-shaped (nonempty) signal.  The text encoder (256-bucket hashed
counts, then the shared normalizer — it never pads or truncates) always
outputs exactly 256 components, returns exactly the zero vector when no
token survives the analyzer, and has output norm within 1e-5 of 1
whenever at least one token survives. -/
theorem C6_encoder_tail (d : ℕ) (v : List ℝ) :
    (l2_normalize (fitDim d v)).length = d
    ∧ ((∀ x ∈ v, x = 0) → l2_normalize (fitDim d v) = List.replicate d 0)
    ∧ ((1/10000000 : ℝ) ≤ Real.sqrt (sumSq (fitDim d v)) →
        |Real.sqrt (sumSq (l2_normalize (fitDim d v))) - 1| ≤ 1/100000)
    ∧ (∀ s : List ℝ, s ≠ [] → (radar_embed s).length = 128)
    ∧ ∀ (h : String → Fin 256) (tokens : List String),
        (text_embed h tokens).length = 256
        ∧ (tokens = [] → text_embed h tokens = List.replicate 256 0)
        ∧ (tokens ≠ [] →
            |Real.sqrt (sumSq (text_embed h tokens)) - 1| ≤ 1/100000) :=
  ⟨by rw [length_l2_normalize, length_fitDim],
   l2_normalize_fitDim_zero d v,
   l2_normalize_norm_close (fitDim d v),
   fun s _ => length_radar_embed s,
   fun h tokens =>
     ⟨length_text_embed h tokens,
      fun he => he ▸ text_embed_nil h,
      text_embed_norm h tokens⟩⟩

/-- C6 witness: an all-zero feature vector yields the zero vector; the
feature vector [3, 4] (norm 5) normalizes to norm within 1e-5 of 1; a
one-sample radar signal embeds to 128 components; and the text encoder
yields the zero vector on an empty token list and a near-unit vector on
a surviving token. -/
theorem C6_witness :
    l2_normalize (fitDim 2 [(0:ℝ), 0]) = List.replicate 2 0
    ∧ |Real.sqrt (sumSq (l2_normalize (fitDim 2 [(3:ℝ), 4]))) - 1| ≤ 1/100000
    ∧ (radar_embed [(1:ℝ)]).length = 128
    ∧ text_embed (fun _ => (0 : Fin 256)) [] = List.replicate 256 0
    ∧ |Real.sqrt (sumSq (text_embed (fun _ => (0 : Fin 256)) ["pedestrian"])) - 1|
        ≤ 1/100000 :=
  ⟨(C6_encoder_tail 2 [0, 0]).2.1 (by
      intro x hx
      rcases List.mem_cons.mp hx with rfl | hx2
      · rfl
      · exact List.mem_singleton.mp hx2),
   (C6_encoder_tail 2 [3, 4]).2.2.1 (by
      have hfit : fitDim 2 [(3:ℝ), 4] = [3, 4] := by norm_num [fitDim]
      rw [hfit]
      have h25 : sumSq [(3:ℝ), 4] = 25 := by norm_num [sumSq]
      rw [h25, show (25:ℝ) = 5 * 5 by norm_num,
        Real.sqrt_mul_self (by norm_num : (0:ℝ) ≤ 5)]
      norm_num),
   (C6_encoder_tail 0 []).2.2.2.1 [(1:ℝ)] (by simp),
   ((C6_encoder_tail 0 []).2.2.2.2 (fun _ => (0 : Fin 256)) []).2.1 rfl,
   ((C6_encoder_tail 0 []).2.2.2.2 (fun _ => (0 : Fin 256)) ["pedestrian"]).2.2
     (by simp)⟩

/-- C6 counterexample: the valid, nonzero radar signal `[1e-12]` embeds
to an output vector of Euclidean norm exactly 1/2 — neither within 1e-5
of 1 nor the zero vector, although the input is not degenerate. -/
theorem C6_counterexample :
    (radar_embed [(1/1000000000000 : ℝ)]).length = 128
    ∧ Real.sqrt (sumSq (radar_embed [(1/1000000000000 : ℝ)])) = 1/2
    ∧ ¬ |Real.sqrt (sumSq (radar_embed [(1/1000000000000 : ℝ)])) - 1| ≤ 1/100000
    ∧ radar_embed [(1/1000000000000 : ℝ)] ≠ List.replicate 128 (0:ℝ)
    ∧ (1/1000000000000 : ℝ) ≠ 0 := by
  refine ⟨length_radar_embed _, radar_embed_eps, ?_, ?_, by norm_num⟩
  · rw [radar_embed_eps, abs_of_nonpos (by norm_num : (1/2 : ℝ) - 1 ≤ 0)]
    norm_num
  · intro hEq
    have h0 := radar_embed_eps
    rw [hEq, sumSq_replicate_zero, Real.sqrt_zero] at h0
    norm_num at h0

end AVMemory
